import Mathlib

/-!
Shallow embedding of the Monte-Carlo trading simulator from `src/app/page.tsx`.

JavaScript numbers are modelled by `ℚ` (every value the engine manipulates on
the claims' inputs is a finite double; rational arithmetic is exact, so the
spec's "within 1e-9" tolerances are met exactly).  The 32-bit integer
arithmetic inside the PRNG is modelled by `ℕ` with explicit reduction
`% 4294967296`, which agrees bit-for-bit with JavaScript's int32/uint32
coercions on the operations used.  The `Math.random` fallback (no seed) is
modelled by an explicit stream parameter `ext : ℕ → ℚ` of "ambient entropy";
a seeded run never reads it.  IEEE special values (`NaN`, `±Infinity`) are
not representable in `ℚ`; the small `JSNum` model at the end of the
definitions covers the one place a claim depends on them (the trade/path
count coercion of `runSimulation`, lines 378-379).
-/

namespace MonteCarlo

/-- JavaScript `Math.trunc`: rounds toward zero (source: engine-wide numeric
coercions, e.g. line 378 `Math.trunc(nTrades)`). -/
def jsTrunc (q : ℚ) : ℤ := if 0 ≤ q then ⌊q⌋ else ⌈q⌉

/-- JavaScript `x >>> 0` applied to an integer: reduction to an unsigned
32-bit value (source line 181 `seed >>> 0`). -/
def uint32OfInt (z : ℤ) : ℕ := (z % 4294967296).toNat

/-- One output of `mulberry32` as a function of the post-increment state `a`
(source lines 182-188).  All JavaScript int32/uint32 bit operations are
modelled on unsigned representatives modulo `2^32`: `Math.imul` is
multiplication `% 2^32`, `x | y`, `x ^ y`, `x >>> k` are the bitwise
operations on the unsigned representatives, and the intermediate float
addition `t + Math.imul(...)` is reduced `% 2^32` by the following `^=`
(ToInt32). -/
def mulberryMix (t0 : ℕ) : ℕ :=
  let t1 := (Nat.xor t0 (t0 >>> 15)) * (t0 ||| 1) % 4294967296
  let t2 := Nat.xor t1 ((t1 + (Nat.xor t1 (t1 >>> 7)) * (t1 ||| 61) % 4294967296) % 4294967296)
  Nat.xor t2 (t2 >>> 14)

/-- The `mulberry32` generator (source lines 180-189).  Each call first adds
`0x6d2b79f5 = 1831565813` to the state and then mixes it, so the value of the
`n`-th call (0-based) is a pure function of the seed.  The final
`(... >>> 0) / 4294967296` yields a rational in `[0,1)`. -/
def mulberryStream (seed0 : ℕ) : ℕ → ℚ :=
  fun n => ((mulberryMix ((seed0 + (n + 1) * 1831565813) % 4294967296) : ℕ) : ℚ) / 4294967296

/-- The `createRng` factory (source lines 191-196): a non-finite/absent seed
falls back to `Math.random` (the ambient entropy stream `ext`); a finite seed
is truncated and fed to `mulberry32`.  In the `ℚ` model every present seed is
finite. -/
def createRng (seed : Option ℚ) (ext : ℕ → ℚ) : ℕ → ℚ :=
  match seed with
  | none => ext
  | some s => mulberryStream (uint32OfInt (jsTrunc s))

/-- Bucket distribution kind (source line 45). -/
inductive BucketType where
  | uniform : BucketType
  | point : BucketType
deriving DecidableEq

/-- One outcome bucket (source lines 47-55).  The engine reads only the
weight `p`, the kind, and the payoff fields; `id`/`name` are presentation
only and omitted. -/
structure Bucket where
  p : ℚ
  type : BucketType
  lo : Option ℚ := none
  hi : Option ℚ := none
  v : Option ℚ := none
deriving DecidableEq

/-- Default used to totalise the (in-bounds in the source) bucket lookup. -/
def defaultBucket : Bucket := { p := 0, type := BucketType.point }

/-- JavaScript `reduce((acc, p) => acc + p, 0)` (source line 381). -/
def jsSum (l : List ℚ) : ℚ := l.foldl (· + ·) 0

/-- Weights clamped to non-negative (source line 380). -/
def clampedProbs (buckets : List Bucket) : List ℚ := buckets.map (fun b => max 0 b.p)

/-- Total clamped weight with the `|| 1` fallback that turns a zero sum into
1 (source line 381). -/
def probSum (buckets : List Bucket) : ℚ :=
  let s := jsSum (clampedProbs buckets)
  if s = 0 then 1 else s

/-- Normalized probabilities (source lines 380-382): each clamped weight
divided by the (fallback-adjusted) total. -/
def normProbs (buckets : List Bucket) : List ℚ :=
  (clampedProbs buckets).map (fun p => p / probSum buckets)

/-- Prefix sums with accumulator, mirroring the `reduce` that pushes
`prev + p` (source lines 383-387). -/
def cumAux (acc : ℚ) : List ℚ → List ℚ
  | [] => []
  | p :: rest => (acc + p) :: cumAux (acc + p) rest

/-- The cumulative probability table of a bucket list (source lines 383-387). -/
def cumTable (buckets : List Bucket) : List ℚ := cumAux 0 (normProbs buckets)

/-- Bucket index selection (source lines 410-411): `findIndex(p => r <= p)`
with the `-1` (not found) case falling back to the last bucket.  Lean's
`List.findIdx` returns the list length when no element matches, which plays
the role of JavaScript's `-1`. -/
def selIdx (cum : List ℚ) (bucketCount : ℕ) (u : ℚ) : ℕ :=
  let i := cum.findIdx (fun p => decide (u ≤ p))
  if i = cum.length then bucketCount - 1 else i

/-- The bucket selected by the draw `u` (source line 411). -/
def chosenBucket (buckets : List Bucket) (cum : List ℚ) (u : ℚ) : Bucket :=
  buckets.getD (selIdx cum buckets.length u) defaultBucket

/-- Sampling one trade outcome (source lines 409-419).  The draw positions
make the PRNG consumption explicit: the selection draw is `rng pos`; a
`point` bucket finishes at `pos + 1`, a `uniform` bucket reads one more draw
`rng (pos + 1)` and finishes at `pos + 2`. -/
def sampleOutcome (buckets : List Bucket) (cum : List ℚ) (rng : ℕ → ℚ) (pos : ℕ) : ℚ × ℕ :=
  let b := chosenBucket buckets cum (rng pos)
  match b.type with
  | BucketType.point => (b.v.getD 0, pos + 1)
  | BucketType.uniform => (b.lo.getD 0 + (b.hi.getD 0 - b.lo.getD 0) * rng (pos + 1), pos + 2)

/-- Linear interpolation into a sorted list at fractional index `index`
(source lines 203-210): floor/ceil the rank, return the element at an exact
integer rank, otherwise lerp between the two neighbours. -/
def interpSorted (s : List ℚ) (index : ℚ) : ℚ :=
  let lo := ⌊index⌋
  let hi := ⌈index⌉
  if lo = hi then s.getD lo.toNat 0
  else s.getD lo.toNat 0 + (s.getD hi.toNat 0 - s.getD lo.toNat 0) * (index - (lo : ℚ))

/-- The `percentile` primitive (source lines 198-211): empty input yields 0,
otherwise sort ascending (the JS comparator `(a, b) => a - b`; modelled by
`insertionSort (· ≤ ·)`, a permutation sorted the same way) and interpolate
at rank `p / 100 * (n - 1)`. -/
def percentile (values : List ℚ) (p : ℚ) : ℚ :=
  if values = [] then 0
  else
    let sorted := values.insertionSort (· ≤ ·)
    interpSorted sorted (p / 100 * ((sorted.length : ℚ) - 1))

/-- Running-peak scan of `maxDrawdown` (loop of source lines 217-226), with
the running `peak` and current minimum drawdown `minDd` explicit.  When the
running peak is zero the source's `v / peak` is `NaN` (which fails the
`dd < minDd` comparison); `ℚ` uses the `x / 0 = 0` convention instead, so
theorems about this scan carry hypotheses keeping the peak non-zero
(positive series, or non-zero block equities). -/
def mddAux : List ℚ → ℚ → ℚ → ℚ
  | [], _, minDd => minDd
  | v :: rest, peak, minDd =>
    let peak' := if v > peak then v else peak
    let dd := v / peak' - 1
    let minDd' := if dd < minDd then dd else minDd
    mddAux rest peak' minDd'

/-- The `maxDrawdown` primitive (source lines 213-228): peak seeded at the
first element, empty series yields 0. -/
def maxDrawdown : List ℚ → ℚ
  | [] => 0
  | v :: rest => mddAux (v :: rest) v 0

/-- Running-peak scan of `drawdownSeries` (loop of source lines 234-240).
When the running peak is zero the source's `v / peak` is `NaN`; `ℚ` uses the
`x / 0 = 0` convention instead, so theorems about this scan restrict to
series whose running peak stays positive (positive first element). -/
def ddAux : List ℚ → ℚ → List ℚ
  | [], _ => []
  | v :: rest, peak =>
    let peak' := if v > peak then v else peak
    (v / peak' - 1) :: ddAux rest peak'

/-- The `drawdownSeries` primitive (source lines 230-242): the full per-point
drawdown trace under the same running-peak logic as `maxDrawdown`. -/
def drawdownSeries : List ℚ → List ℚ
  | [] => []
  | v :: rest => ddAux (v :: rest) v

/-- The `maxConsecutiveLosses` primitive (source lines 244-258): length of
the longest run of strictly negative outcomes. -/
def maxConsecutiveLosses (rPath : List ℚ) : ℕ :=
  (rPath.foldl
    (fun acc r =>
      if r < 0 then
        let run := acc.2 + 1
        (max acc.1 run, run)
      else (acc.1, 0))
    ((0 : ℕ), (0 : ℕ))).1

/-- One row of a monthly statistics table (source lines 64-72). -/
structure MonthlyStatsRow where
  year : ℤ
  month : ℤ
  returnValue : ℚ
  maxDrawdown : ℚ
  winRate : ℚ
  maxConsecutiveLosses : ℕ
  endEquity : ℚ
deriving DecidableEq

/-- Win/loss/streak scan over one month's outcomes (source lines 293-309):
returns `(wins, losses, maxLossStreak)`; zero outcomes only reset the loss
streak. -/
def blockWinLoss (rs : List ℚ) : ℕ × ℕ × ℕ :=
  let res := rs.foldl
    (fun (acc : ℕ × ℕ × ℕ × ℕ) (r : ℚ) =>
      let (wins, losses, maxLS, ls) := acc
      if 0 < r then (wins + 1, losses, maxLS, 0)
      else if r < 0 then
        let ls' := ls + 1
        (wins, losses + 1, max maxLS ls', ls')
      else (wins, losses, maxLS, 0))
    (0, 0, 0, 0)
  (res.1, res.2.1, res.2.2.1)

/-- One month's row (the block statistics of source lines 277-321): block
indices `startIdx = m * tpm` and `endIdx = min((m+1) * tpm, n) - 1` computed
in `ℤ` as in JavaScript (where `endIdx` can be `-1`), block return against
the previous end equity, running-peak drawdown seeded at `prev`, win/loss
counts among non-zero outcomes, and loss-streak maximum. -/
def blockRow (eq r : List ℚ) (tpm m : ℕ) (prev : ℚ) (year month : ℤ) : MonthlyStatsRow :=
  let startIdx : ℤ := (m : ℤ) * tpm
  let endIdx : ℤ := min ((m + 1 : ℤ) * tpm) (eq.length : ℤ) - 1
  let eqSlice := (eq.drop startIdx.toNat).take (endIdx - startIdx + 1).toNat
  let rSlice := (r.drop startIdx.toNat).take (endIdx - startIdx + 1).toNat
  let endEquity := eq.getD endIdx.toNat 0
  let wl := blockWinLoss rSlice
  let trades := wl.1 + wl.2.1
  { year := year
    month := month
    returnValue := endEquity / prev - 1
    maxDrawdown := mddAux eqSlice prev 0
    winRate := if trades = 0 then 0 else (wl.1 : ℚ) / (trades : ℚ)
    maxConsecutiveLosses := wl.2.2
    endEquity := endEquity }

/-- The month loop of `monthlyStatsFromPath` (source lines 276-329), recursing
on the number of remaining months `k` with the month index `m`, the previous
end equity `prev`, and the calendar position carried exactly as in the
source (month 13 wraps to month 1 of the next year). -/
def monthlyAux (eq r : List ℚ) (tpm : ℕ) : ℕ → ℕ → ℚ → ℤ → ℤ → List MonthlyStatsRow
  | 0, _, _, _, _ => []
  | k + 1, m, prev, year, month =>
    if min ((m + 1 : ℤ) * tpm) (eq.length : ℤ) - 1 < (m : ℤ) * tpm then []
    else
      let row := blockRow eq r tpm m prev year month
      row :: (if month + 1 = 13 then monthlyAux eq r tpm k (m + 1) row.endEquity (year + 1) 1
              else monthlyAux eq r tpm k (m + 1) row.endEquity year (month + 1))

/-- The `monthlyStatsFromPath` aggregation (source lines 260-332):
`tradesPerMonth` floored at 1, `⌈nTrades / tradesPerMonth⌉` blocks, each
block's return measured against the previous block's end equity (the global
start equity for the first block), with a local running-peak drawdown seeded
at that previous equity. -/
def monthlyStatsFromPath (equityPath rPath : List ℚ) (startEquity : ℚ) (tradesPerMonth : ℕ)
    (startYear startMonth : ℤ) : List MonthlyStatsRow :=
  let safeTpm := max 1 tradesPerMonth
  let nMonths := (equityPath.length + safeTpm - 1) / safeTpm
  monthlyAux equityPath rPath safeTpm nMonths 0 startEquity startYear startMonth

/-- Histogram output structure (source lines 57-62). -/
structure Histogram where
  bins : List ℚ
  counts : List ℕ
  min : ℚ
  max : ℚ
deriving DecidableEq

/-- JavaScript `Math.min(...values)` for the non-empty lists the engine feeds
it (source line 335). -/
def jsMinList (l : List ℚ) : ℚ := l.foldl min (l.headD 0)

/-- JavaScript `Math.max(...values)` for the non-empty lists the engine feeds
it (source line 336). -/
def jsMaxList (l : List ℚ) : ℚ := l.foldl max (l.headD 0)

/-- Bin index of one value (source lines 341-344): floor of the scaled
offset, clamped into `[0, binCount - 1]`. -/
def binIndex (lo span : ℚ) (binCount : ℕ) (v : ℚ) : ℕ :=
  min (binCount - 1) (max 0 ⌊(v - lo) / span * binCount⌋).toNat

/-- The `histogram` primitive (source lines 334-348): `span = max - min || 1`;
bin edges `min + i * span / binCount`; counts are raw frequencies (the
per-index counts agree with the source's increment loop since every value is
clamped into range). -/
def histogram (values : List ℚ) (binCount : ℕ) : Histogram :=
  let lo := jsMinList values
  let hi := jsMaxList values
  let span0 := hi - lo
  let span := if span0 = 0 then 1 else span0
  let bins := (List.range binCount).map (fun i => lo + (i * span) / binCount)
  let counts := (List.range binCount).map
    (fun j => (values.filter (fun v => binIndex lo span binCount v = j)).length)
  { bins := bins, counts := counts, min := lo, max := hi }

/-- Progressive-exposure policy (source lines 371-376). -/
structure ProgCfg where
  lossStreakThreshold : ℚ
  winStreakThreshold : ℚ
  minRisk : ℚ
  maxRisk : ℚ
deriving DecidableEq

/-- Simulation configuration (source lines 350-377).  `seed = none` models
`null` (the engine then falls back to `Math.random`). -/
structure SimCfg where
  startEquity : ℚ
  nTrades : ℚ
  nPaths : ℚ
  riskFraction : ℚ
  seed : Option ℚ
  tradesPerMonth : ℕ
  startYear : ℤ
  startMonth : ℤ
  buckets : List Bucket
  progressive : Option ProgCfg
deriving DecidableEq

/-- Trade count coercion (source line 378): `Math.max(1, Math.trunc(nTrades))`. -/
def safeTrades (cfg : SimCfg) : ℕ := (max 1 (jsTrunc cfg.nTrades)).toNat

/-- Path count coercion (source line 379): `Math.max(1, Math.trunc(nPaths))`. -/
def safePaths (cfg : SimCfg) : ℕ := (max 1 (jsTrunc cfg.nPaths)).toNat

/-- Streak threshold coercion (source lines 435 and 442):
`Math.max(1, Math.trunc(threshold))`. -/
def coerceThreshold (q : ℚ) : ℤ := max 1 (jsTrunc q)

/-- Per-path mutable state of the trade loop (source lines 399-406 plus the
shared PRNG draw position). -/
structure PathState where
  pos : ℕ
  equity : ℚ
  currentRisk : ℚ
  lossStreak : ℕ
  winStreak : ℕ
  peak : ℚ
  minDd : ℚ
deriving DecidableEq

/-- The progressive-exposure update (source lines 431-450), applied after the
equity update.  Returns the new `(currentRisk, winStreak, lossStreak)`. -/
def progUpdate (prog : Option ProgCfg) (sample risk : ℚ) (winStreak lossStreak : ℕ) :
    ℚ × ℕ × ℕ :=
  match prog with
  | none => (risk, winStreak, lossStreak)
  | some pc =>
    if 0 < sample then
      let w := winStreak + 1
      if (w : ℤ) ≥ coerceThreshold pc.winStreakThreshold then (min pc.maxRisk (risk * 2), 0, 0)
      else (risk, w, 0)
    else if sample < 0 then
      let l := lossStreak + 1
      if (l : ℤ) ≥ coerceThreshold pc.lossStreakThreshold then (max pc.minRisk (risk / 2), 0, 0)
      else (risk, 0, l)
    else (risk, 0, 0)

/-- One iteration of the trade loop (source lines 408-450): sample, update
equity multiplicatively, update running peak and minimum drawdown, then run
the progressive-exposure state machine.  Returns the new state together with
the recorded equity (`equityPath[t]`) and raw outcome (`rPath[t]`). -/
def tradeStep (buckets : List Bucket) (cum : List ℚ) (rng : ℕ → ℚ) (prog : Option ProgCfg)
    (s : PathState) : PathState × ℚ × ℚ :=
  let sp := sampleOutcome buckets cum rng s.pos
  let sample := sp.1
  let equity' := s.equity * (1 + s.currentRisk * sample)
  let peak' := if equity' > s.peak then equity' else s.peak
  let dd := equity' / peak' - 1
  let minDd' := if dd < s.minDd then dd else s.minDd
  let pu := progUpdate prog sample s.currentRisk s.winStreak s.lossStreak
  ({ pos := sp.2, equity := equity', currentRisk := pu.1, lossStreak := pu.2.2,
     winStreak := pu.2.1, peak := peak', minDd := minDd' }, equity', sample)

/-- The state part of `tradeStep`, used to express "the state entering trade
`t`" as an iterate. -/
def pureStep (buckets : List Bucket) (cum : List ℚ) (rng : ℕ → ℚ) (prog : Option ProgCfg)
    (s : PathState) : PathState :=
  (tradeStep buckets cum rng prog s).1

/-- The trade loop of one path (source lines 408-451): runs `T` trade steps
from state `s`, returning the recorded equity series, outcome series, and the
final state. -/
def runPathAux (buckets : List Bucket) (cum : List ℚ) (rng : ℕ → ℚ) (prog : Option ProgCfg) :
    ℕ → PathState → List ℚ × List ℚ × PathState
  | 0, s => ([], [], s)
  | T + 1, s =>
    let st := tradeStep buckets cum rng prog s
    let rest := runPathAux buckets cum rng prog T st.1
    (st.2.1 :: rest.1, st.2.2 :: rest.2.1, rest.2.2)

/-- Fresh per-path state (source lines 401-406): equity, peak at the start
equity, risk at the base risk fraction, streaks and minimum drawdown at 0;
`pos` is the shared PRNG position at which this path starts drawing. -/
def initState (startEquity riskFraction : ℚ) (pos : ℕ) : PathState :=
  { pos := pos, equity := startEquity, currentRisk := riskFraction, lossStreak := 0,
    winStreak := 0, peak := startEquity, minDd := 0 }

/-- One full path simulation starting at PRNG position `pos`. -/
def simOnePath (cfg : SimCfg) (rng : ℕ → ℚ) (pos : ℕ) : List ℚ × List ℚ × PathState :=
  runPathAux cfg.buckets (cumTable cfg.buckets) rng cfg.progressive (safeTrades cfg)
    (initState cfg.startEquity cfg.riskFraction pos)

/-- PRNG position at which path `p` starts drawing: paths are simulated in
index order against the single shared generator (source line 388 creates one
`rng` used by the whole path loop). -/
def pathStartPos (cfg : SimCfg) (rng : ℕ → ℚ) : ℕ → ℕ
  | 0 => 0
  | p + 1 => (simOnePath cfg rng (pathStartPos cfg rng p)).2.2.pos

/-- State entering trade `t` of path `p` (the loop state after `t` iterations
of the trade loop body). -/
def pathStateAt (cfg : SimCfg) (rng : ℕ → ℚ) (p t : ℕ) : PathState :=
  (pureStep cfg.buckets (cumTable cfg.buckets) rng cfg.progressive)^[t]
    (initState cfg.startEquity cfg.riskFraction (pathStartPos cfg rng p))

/-- The risk fraction in effect at trade `t` of path `p`: the base risk
fraction at `t = 0`, afterwards whatever the progressive-exposure machine has
made of it. -/
def riskInEffect (cfg : SimCfg) (rng : ℕ → ℚ) (p t : ℕ) : ℚ :=
  (pathStateAt cfg rng p t).currentRisk

/-- Selection accumulator of the representative-path scan (source lines
476-481); `none` models the `±Infinity` sentinels. -/
structure SelAcc where
  medianIdx : ℕ
  bestIdx : ℕ
  worstIdx : ℕ
  bestValue : Option ℚ
  worstValue : Option ℚ
  closest : Option ℚ
deriving DecidableEq

/-- JavaScript `value > current` against a `-Infinity`-initialised slot. -/
def beatsHigh : Option ℚ → ℚ → Bool
  | none, _ => true
  | some b, v => decide (b < v)

/-- JavaScript `value < current` against a `+Infinity`-initialised slot. -/
def beatsLow : Option ℚ → ℚ → Bool
  | none, _ => true
  | some w, v => decide (v < w)

/-- The representative-path scan (source lines 483-498): one pass recording
the indices of the maximum final equity, the minimum final equity, and the
final equity closest to the 50th-percentile value, ties broken by first
occurrence.  Returns `(medianIdx, bestIdx, worstIdx)`. -/
def selectRepresentatives (finalEquity : List ℚ) (medianValue : ℚ) : ℕ × ℕ × ℕ :=
  let acc := finalEquity.enum.foldl
    (fun (a : SelAcc) iv =>
      let i := iv.1
      let value := iv.2
      let a1 := if beatsHigh a.bestValue value then
          { a with bestIdx := i, bestValue := some value } else a
      let a2 := if beatsLow a1.worstValue value then
          { a1 with worstIdx := i, worstValue := some value } else a1
      let distance := |value - medianValue|
      if beatsLow a2.closest distance then
        { a2 with medianIdx := i, closest := some distance } else a2)
    { medianIdx := 0, bestIdx := 0, worstIdx := 0, bestValue := none, worstValue := none,
      closest := none }
  (acc.medianIdx, acc.bestIdx, acc.worstIdx)

/-- JavaScript `if (v < acc) acc = v` against a `+Infinity`-initialised
accumulator (source lines 453-455). -/
def jsMinOpt (acc : Option ℚ) (v : ℚ) : Option ℚ :=
  match acc with
  | none => some v
  | some m => if v < m then some v else some m

/-- JavaScript `if (v > acc) acc = v` against a `-Infinity`-initialised
accumulator (source lines 453-456). -/
def jsMaxOpt (acc : Option ℚ) (v : ℚ) : Option ℚ :=
  match acc with
  | none => some v
  | some m => if m < v then some v else some m

/-- Percentile summary block (source lines 84-94 and 465-473). -/
structure SimStats where
  final5 : ℚ
  final50 : ℚ
  final95 : ℚ
  dd5 : ℚ
  dd50 : ℚ
  dd95 : ℚ
  mcl5 : ℚ
  mcl50 : ℚ
  mcl95 : ℚ
deriving DecidableEq

/-- The full simulation result (source lines 74-114 and 544-559). -/
structure SimulationResult where
  equityPaths : List (List ℚ)
  rPaths : List (List ℚ)
  finalEquity : List ℚ
  maxDrawdowns : List ℚ
  medianIdx : ℕ
  bestIdx : ℕ
  worstIdx : ℕ
  equityMin : Option ℚ
  equityMax : Option ℚ
  stats : SimStats
  ddMedian : List ℚ
  ddBest : List ℚ
  ddWorst : List ℚ
  mclMedian : ℕ
  mclBest : ℕ
  mclWorst : ℕ
  monthlyMedian : List MonthlyStatsRow
  monthlyBest : List MonthlyStatsRow
  monthlyWorst : List MonthlyStatsRow
  histDrawdown : Histogram
  histFinalEquity : Histogram
deriving DecidableEq

/-- The body of `runSimulation` (source lines 378-559) given the uniform
stream produced by `createRng`: simulate `safePaths` paths in index order
against the shared stream, then aggregate. -/
def runSimulationCore (cfg : SimCfg) (rng : ℕ → ℚ) : SimulationResult :=
  let T := safeTrades cfg
  let paths := (List.range (safePaths cfg)).map (fun p => simOnePath cfg rng (pathStartPos cfg rng p))
  let equityPaths := paths.map (fun x => x.1)
  let rPaths := paths.map (fun x => x.2.1)
  let finalEquity := paths.map (fun x => x.1.getD (T - 1) x.2.2.equity)
  let maxDrawdowns := paths.map (fun x => x.2.2.minDd)
  let mclAll := paths.map (fun x => maxConsecutiveLosses x.2.1)
  let equityMin := equityPaths.foldl (fun acc l => l.foldl jsMinOpt acc) none
  let equityMax := equityPaths.foldl (fun acc l => l.foldl jsMaxOpt acc) none
  let final50 := percentile finalEquity 50
  let sel := selectRepresentatives finalEquity final50
  let medianIdx := sel.1
  let bestIdx := sel.2.1
  let worstIdx := sel.2.2
  { equityPaths := equityPaths
    rPaths := rPaths
    finalEquity := finalEquity
    maxDrawdowns := maxDrawdowns
    medianIdx := medianIdx
    bestIdx := bestIdx
    worstIdx := worstIdx
    equityMin := equityMin
    equityMax := equityMax
    stats :=
      { final5 := percentile finalEquity 5
        final50 := final50
        final95 := percentile finalEquity 95
        dd5 := percentile maxDrawdowns 5
        dd50 := percentile maxDrawdowns 50
        dd95 := percentile maxDrawdowns 95
        mcl5 := percentile (mclAll.map (fun n => (n : ℚ))) 5
        mcl50 := percentile (mclAll.map (fun n => (n : ℚ))) 50
        mcl95 := percentile (mclAll.map (fun n => (n : ℚ))) 95 }
    ddMedian := drawdownSeries (equityPaths.getD medianIdx [])
    ddBest := drawdownSeries (equityPaths.getD bestIdx [])
    ddWorst := drawdownSeries (equityPaths.getD worstIdx [])
    mclMedian := mclAll.getD medianIdx 0
    mclBest := mclAll.getD bestIdx 0
    mclWorst := mclAll.getD worstIdx 0
    monthlyMedian := monthlyStatsFromPath (equityPaths.getD medianIdx [])
      (rPaths.getD medianIdx []) cfg.startEquity cfg.tradesPerMonth cfg.startYear cfg.startMonth
    monthlyBest := monthlyStatsFromPath (equityPaths.getD bestIdx [])
      (rPaths.getD bestIdx []) cfg.startEquity cfg.tradesPerMonth cfg.startYear cfg.startMonth
    monthlyWorst := monthlyStatsFromPath (equityPaths.getD worstIdx [])
      (rPaths.getD worstIdx []) cfg.startEquity cfg.tradesPerMonth cfg.startYear cfg.startMonth
    histDrawdown := histogram maxDrawdowns 60
    histFinalEquity := histogram finalEquity 60 }

/-- The `runSimulation` entry point (source lines 350-560): build the PRNG
from the optional seed (falling back to the ambient entropy stream `ext`,
which models `Math.random`) and run the simulation body. -/
def runSimulation (cfg : SimCfg) (ext : ℕ → ℚ) : SimulationResult :=
  runSimulationCore cfg (createRng cfg.seed ext)

/-- JavaScript number with the IEEE special values that `ℚ` cannot
represent, used to settle the non-finite branch of the count coercion. -/
inductive JSNum where
  | num : ℚ → JSNum
  | nan : JSNum
  | inf : JSNum
  | ninf : JSNum
deriving DecidableEq

/-- IEEE `Math.trunc`: `NaN` and infinities pass through. -/
def jsTruncNum : JSNum → JSNum
  | JSNum.num q => JSNum.num (jsTrunc q)
  | JSNum.nan => JSNum.nan
  | JSNum.inf => JSNum.inf
  | JSNum.ninf => JSNum.ninf

/-- IEEE `Math.max` of two values: any `NaN` operand makes the result `NaN`,
`+Infinity` dominates, `-Infinity` is the identity. -/
def jsMaxNum : JSNum → JSNum → JSNum
  | JSNum.nan, _ => JSNum.nan
  | _, JSNum.nan => JSNum.nan
  | JSNum.inf, _ => JSNum.inf
  | _, JSNum.inf => JSNum.inf
  | JSNum.ninf, y => y
  | x, JSNum.ninf => x
  | JSNum.num a, JSNum.num b => JSNum.num (max a b)

/-- The count coercion of source lines 378-379, `Math.max(1, Math.trunc(n))`,
with IEEE special values tracked. -/
def safeCountNum (n : JSNum) : JSNum := jsMaxNum (JSNum.num 1) (jsTruncNum n)

/-- Length of the typed array `new Float64Array(len)` (ECMAScript `ToIndex`):
`NaN` becomes length 0, a finite value is truncated and must be a
non-negative (small) integer, `±Infinity` and negative lengths throw a
`RangeError`, modelled by `none`.  `new Array(len)` (source lines 390-394)
additionally throws on any non-integer, which only widens the failure. -/
def jsToLength : JSNum → Option ℕ
  | JSNum.nan => some 0
  | JSNum.inf => none
  | JSNum.ninf => none
  | JSNum.num q => if jsTrunc q < 0 then none else some (jsTrunc q).toNat

/-- Concrete always-losing bucket (spec 8, scenario lines). -/
def bucketLoss : Bucket := { p := 1, type := BucketType.point, v := some (-1) }

/-- Concrete zero-weight bucket: the degenerate all-zero-weight bucket list. -/
def bucketZeroW : Bucket := { p := 0, type := BucketType.point, v := some 1 }

/-- Concrete uniform bucket. -/
def bucketSpread : Bucket := { p := 1, type := BucketType.uniform, lo := some 2, hi := some 4 }

/-- Concrete progressive-exposure policy with loss threshold 1. -/
def progW : ProgCfg :=
  { lossStreakThreshold := 1, winStreakThreshold := 3, minRisk := 1/400, maxRisk := 1/10 }

/-- Concrete seeded configuration used to instantiate the universally
quantified theorems. -/
def cfgW : SimCfg :=
  { startEquity := 1000
    nTrades := 10
    nPaths := 2
    riskFraction := 1/100
    seed := some 7
    tradesPerMonth := 4
    startYear := 2024
    startMonth := 11
    buckets := [bucketLoss]
    progressive := none }

/-- Configuration with given raw (finite) trade and path counts, used to
state the count-coercion property. -/
def cfgWithCounts (t p : ℚ) : SimCfg :=
  { startEquity := 1000
    nTrades := t
    nPaths := p
    riskFraction := 1/100
    seed := some 7
    tradesPerMonth := 4
    startYear := 2024
    startMonth := 11
    buckets := [bucketLoss]
    progressive := none }

/-- C1: for every configuration carrying a (necessarily finite) seed,
`runSimulation` is a pure function of the configuration alone: the ambient
entropy stream (the `Math.random` fallback) is never consulted, so two runs
with the identical configuration produce identical equity series, identical
outcome series, and identical downstream statistics — the full result
structures are equal. -/
theorem seeded_run_deterministic (cfg : SimCfg) (s : ℚ) (ext1 ext2 : ℕ → ℚ)
    (h : cfg.seed = some s) : runSimulation cfg ext1 = runSimulation cfg ext2 := by
  unfold runSimulation
  rw [h]
  rfl

/-- Witness for C1 at a concrete seeded configuration and two distinct
entropy streams. -/
theorem seeded_run_deterministic_witness :
    runSimulation cfgW (fun _ => 0) = runSimulation cfgW (fun _ => 1/2) :=
  seeded_run_deterministic cfgW 7 (fun _ => 0) (fun _ => 1/2) rfl

/-- C9 (code bug): the count coercion `Math.max(1, Math.trunc(n))` of source
lines 378-379 floors every finite count at 1 (first conjunct), but does not
handle non-finite counts: `Math.trunc(NaN) = NaN` and `Math.max(1, NaN) =
NaN`, and `new Float64Array(NaN)` has length 0, so every path gets zero
trades instead of at least one (second and third conjuncts); with
`Infinity` the array allocation throws a `RangeError`, so the run fails
outright (fourth conjunct), contradicting the claim that the engine always
produces a result. -/
theorem count_coercion_nonfinite_bug :
    (∀ t p : ℚ, 1 ≤ safeTrades (cfgWithCounts t p) ∧ 1 ≤ safePaths (cfgWithCounts t p)) ∧
    safeCountNum JSNum.nan = JSNum.nan ∧
    jsToLength (safeCountNum JSNum.nan) = some 0 ∧
    jsToLength (safeCountNum JSNum.inf) = none ∧
    safeCountNum (JSNum.num (-5)) = JSNum.num 1 := by
  refine ⟨fun t p => ⟨?_, ?_⟩, rfl, rfl, rfl, by decide⟩
  · have h := le_max_left (1 : ℤ) (jsTrunc (cfgWithCounts t p).nTrades)
    unfold safeTrades
    omega
  · have h := le_max_left (1 : ℤ) (jsTrunc (cfgWithCounts t p).nPaths)
    unfold safePaths
    omega

theorem foldl_add_eq (l : List ℚ) (a : ℚ) : l.foldl (· + ·) a = a + l.sum := by
  induction l generalizing a with
  | nil => simp
  | cons x xs ih => simp [ih, add_assoc]

theorem jsSum_eq_sum (l : List ℚ) : jsSum l = l.sum := by
  simp [jsSum, foldl_add_eq]

theorem sum_map_div (l : List ℚ) (c : ℚ) : (l.map (fun x => x / c)).sum = l.sum / c := by
  induction l with
  | nil => simp
  | cons x xs ih => simp [ih, div_add_div_same]

theorem clampedProbs_nonneg (buckets : List Bucket) : ∀ x ∈ clampedProbs buckets, 0 ≤ x := by
  intro x hx
  simp only [clampedProbs, List.mem_map] at hx
  obtain ⟨b, _, rfl⟩ := hx
  exact le_max_left 0 b.p

theorem probSum_pos (buckets : List Bucket) : 0 < probSum buckets := by
  have hs : 0 ≤ jsSum (clampedProbs buckets) := by
    rw [jsSum_eq_sum]
    exact List.sum_nonneg (clampedProbs_nonneg buckets)
  show 0 < if jsSum (clampedProbs buckets) = 0 then 1 else jsSum (clampedProbs buckets)
  split
  · norm_num
  · next h => exact lt_of_le_of_ne hs (Ne.symm h)

theorem normProbs_nonneg (buckets : List Bucket) : ∀ x ∈ normProbs buckets, 0 ≤ x := by
  intro x hx
  simp only [normProbs, List.mem_map] at hx
  obtain ⟨p, hp, rfl⟩ := hx
  exact div_nonneg (clampedProbs_nonneg buckets p hp) (le_of_lt (probSum_pos buckets))

theorem jsSum_normProbs (buckets : List Bucket) (hpos : ∃ b ∈ buckets, 0 < b.p) :
    jsSum (normProbs buckets) = 1 := by
  obtain ⟨b, hb, hbp⟩ := hpos
  have hmem : max 0 b.p ∈ clampedProbs buckets := List.mem_map.2 ⟨b, hb, rfl⟩
  have hsum : 0 < (clampedProbs buckets).sum :=
    lt_of_lt_of_le (lt_of_lt_of_le hbp (le_max_right 0 b.p))
      (List.single_le_sum (clampedProbs_nonneg buckets) _ hmem)
  have hps : probSum buckets = (clampedProbs buckets).sum := by
    unfold probSum
    rw [jsSum_eq_sum]
    exact if_neg (ne_of_gt hsum)
  rw [jsSum_eq_sum]
  unfold normProbs
  rw [sum_map_div, hps, div_self (ne_of_gt hsum)]

theorem cumAux_getLastD (l : List ℚ) (acc d : ℚ) (h : l ≠ []) :
    (cumAux acc l).getLastD d = acc + l.sum := by
  induction l generalizing acc d with
  | nil => exact absurd rfl h
  | cons p rest ih =>
    cases rest with
    | nil => simp [cumAux]
    | cons q rest' =>
      rw [show cumAux acc (p :: q :: rest') = (acc + p) :: cumAux (acc + p) (q :: rest') from rfl,
        List.getLastD_cons, ih (acc + p) (acc + p) (by simp)]
      simp [add_assoc]

theorem cumAux_chain (l : List ℚ) (acc : ℚ) (h : ∀ x ∈ l, 0 ≤ x) :
    List.Chain' (· ≤ ·) (cumAux acc l) := by
  induction l generalizing acc with
  | nil => simp [cumAux]
  | cons p rest ih =>
    cases rest with
    | nil => simp [cumAux]
    | cons q rest' =>
      rw [show cumAux acc (p :: q :: rest') =
        (acc + p) :: (acc + p + q) :: cumAux (acc + p + q) rest' from rfl]
      have hq : 0 ≤ q := h q (by simp)
      have ih' := ih (acc + p) (fun x hx => h x (List.mem_cons_of_mem p hx))
      rw [show cumAux (acc + p) (q :: rest') = (acc + p + q) :: cumAux (acc + p + q) rest'
        from rfl] at ih'
      exact List.chain'_cons.2 ⟨by linarith, ih'⟩

/-- C4 (amended): for every non-empty bucket list with at least one
strictly positive weight, the normalized weights sum to 1 (within `1e-9`;
the rational model is exact), and the cumulative table is non-decreasing
with last value 1 (within `1e-9`).  The positivity hypothesis is forced by
the counterexample below: with all weights clamped to zero the `|| 1`
fallback divides 0 by 1, so the normalized weights sum to 0, not 1 (the
cumulative table is still non-decreasing). -/
theorem bucketTable_normalized (buckets : List Bucket) (hne : buckets ≠ [])
    (hpos : ∃ b ∈ buckets, 0 < b.p) :
    |jsSum (normProbs buckets) - 1| ≤ 1 / 1000000000 ∧
    List.Chain' (· ≤ ·) (cumTable buckets) ∧
    |(cumTable buckets).getLastD 0 - 1| ≤ 1 / 1000000000 := by
  have h1 := jsSum_normProbs buckets hpos
  have hne' : normProbs buckets ≠ [] := by
    simp only [normProbs, clampedProbs, ne_eq, List.map_eq_nil_iff]
    exact hne
  refine ⟨by rw [h1]; norm_num, cumAux_chain _ _ (normProbs_nonneg buckets), ?_⟩
  rw [show cumTable buckets = cumAux 0 (normProbs buckets) from rfl,
    cumAux_getLastD _ _ _ hne', ← jsSum_eq_sum, h1]
  norm_num

/-- Counterexample for C4 as frozen: the claim quantified over every
non-empty bucket list; with the single zero-weight bucket the normalized
sum is 0 and the cumulative table ends at 0, both outside the `1e-9` band
around 1. -/
theorem bucketTable_normalized_cex :
    ¬ (|jsSum (normProbs [bucketZeroW]) - 1| ≤ 1 / 1000000000 ∧
       List.Chain' (· ≤ ·) (cumTable [bucketZeroW]) ∧
       |(cumTable [bucketZeroW]).getLastD 0 - 1| ≤ 1 / 1000000000) := by
  intro h
  have h1 := h.1
  have h0 : jsSum (normProbs [bucketZeroW]) = 0 := by
    norm_num [jsSum, normProbs, clampedProbs, probSum, bucketZeroW]
  rw [h0] at h1
  norm_num at h1

/-- Witness for C4 at the concrete one-bucket list of weight 1. -/
theorem bucketTable_normalized_witness :
    |jsSum (normProbs [bucketLoss]) - 1| ≤ 1 / 1000000000 ∧
    List.Chain' (· ≤ ·) (cumTable [bucketLoss]) ∧
    |(cumTable [bucketLoss]).getLastD 0 - 1| ≤ 1 / 1000000000 :=
  bucketTable_normalized [bucketLoss] (by simp)
    ⟨bucketLoss, by simp, by norm_num [bucketLoss]⟩

theorem mddAux_cons (v : ℚ) (rest : List ℚ) (peak m : ℚ) :
    mddAux (v :: rest) peak m =
      mddAux rest (if v > peak then v else peak)
        (if v / (if v > peak then v else peak) - 1 < m
         then v / (if v > peak then v else peak) - 1 else m) := rfl

theorem mddAux_le (l : List ℚ) : ∀ peak m : ℚ, mddAux l peak m ≤ m := by
  induction l with
  | nil => intro peak m; exact le_refl m
  | cons v rest ih =>
    intro peak m
    rw [mddAux_cons]
    refine le_trans (ih _ _) ?_
    rcases lt_or_le (v / (if v > peak then v else peak) - 1) m with h | h
    · rw [if_pos h]
      exact le_of_lt h
    · rw [if_neg (not_lt.2 h)]

theorem mddAux_zero_iff (l : List ℚ) : ∀ peak : ℚ, 0 < peak → (∀ x ∈ l, 0 < x) →
    (mddAux l peak 0 = 0 ↔ List.Chain (· ≤ ·) peak l) := by
  induction l with
  | nil =>
    intro peak _ _
    simp [mddAux]
  | cons v rest ih =>
    intro peak hpeak hpos
    have hv : 0 < v := hpos v (by simp)
    have hrest : ∀ x ∈ rest, 0 < x := fun x hx => hpos x (List.mem_cons_of_mem _ hx)
    rcases lt_trichotomy peak v with hlt | heq | hgt
    · have hstep : mddAux (v :: rest) peak 0 = mddAux rest v 0 := by
        rw [mddAux_cons, if_pos hlt, div_self (ne_of_gt hv)]
        norm_num
      rw [hstep, ih v hv hrest, List.chain_cons]
      simp [le_of_lt hlt]
    · subst heq
      have hstep : mddAux (peak :: rest) peak 0 = mddAux rest peak 0 := by
        rw [mddAux_cons, if_neg (lt_irrefl peak), div_self (ne_of_gt hpeak)]
        norm_num
      rw [hstep, ih peak hpeak hrest, List.chain_cons]
      simp
    · have hddneg : v / peak - 1 < 0 := by
        have h1 : v / peak < 1 := (div_lt_one hpeak).2 hgt
        linarith
      have hstep : mddAux (v :: rest) peak 0 = mddAux rest peak (v / peak - 1) := by
        rw [mddAux_cons, if_neg (not_lt.2 (le_of_lt hgt)), if_pos hddneg]
      constructor
      · intro h
        exfalso
        have := mddAux_le rest peak (v / peak - 1)
        rw [hstep] at h
        linarith
      · intro hch
        exact absurd (List.chain_cons.1 hch).1 (not_le.2 hgt)

/-- C7: `maxDrawdown` of the empty series is 0; for every non-empty series
of positive values it is `≤ 0`, and it is 0 exactly when the series is
non-decreasing. -/
theorem maxDrawdown_spec :
    maxDrawdown ([] : List ℚ) = 0 ∧
    ∀ (v : ℚ) (rest : List ℚ), (∀ x ∈ v :: rest, 0 < x) →
      maxDrawdown (v :: rest) ≤ 0 ∧
      (maxDrawdown (v :: rest) = 0 ↔ List.Chain' (· ≤ ·) (v :: rest)) := by
  refine ⟨rfl, fun v rest hpos => ?_⟩
  have hv : 0 < v := hpos v (by simp)
  have hstep : maxDrawdown (v :: rest) = mddAux rest v 0 := by
    show mddAux (v :: rest) v 0 = _
    rw [mddAux_cons, if_neg (lt_irrefl v), div_self (ne_of_gt hv)]
    norm_num
  constructor
  · rw [hstep]
    exact mddAux_le rest v 0
  · rw [hstep]
    exact mddAux_zero_iff rest v hv (fun x hx => hpos x (List.mem_cons_of_mem _ hx))

/-- Witness for C7 at a concrete positive decreasing series. -/
theorem maxDrawdown_spec_witness :
    maxDrawdown [(1000 : ℚ), 990] ≤ 0 ∧
    (maxDrawdown [(1000 : ℚ), 990] = 0 ↔ List.Chain' (· ≤ ·) [(1000 : ℚ), 990]) :=
  maxDrawdown_spec.2 1000 [990] (by norm_num)

theorem ddAux_cons (v : ℚ) (rest : List ℚ) (peak : ℚ) :
    ddAux (v :: rest) peak =
      (v / (if v > peak then v else peak) - 1) :: ddAux rest (if v > peak then v else peak) := rfl

theorem ddAux_length (l : List ℚ) : ∀ peak : ℚ, (ddAux l peak).length = l.length := by
  induction l with
  | nil => intro peak; rfl
  | cons v rest ih =>
    intro peak
    rw [ddAux_cons, List.length_cons, List.length_cons, ih]

theorem ddAux_nonpos (l : List ℚ) : ∀ peak : ℚ, 0 < peak → ∀ x ∈ ddAux l peak, x ≤ 0 := by
  induction l with
  | nil =>
    intro peak _ x hx
    simp [ddAux] at hx
  | cons v rest ih =>
    intro peak hpeak x hx
    have hpk' : 0 < (if v > peak then v else peak) := by
      rcases lt_or_le peak v with h | h
      · rw [if_pos h]
        exact lt_trans hpeak h
      · rw [if_neg (not_lt.2 h)]
        exact hpeak
    have hvle : v ≤ (if v > peak then v else peak) := by
      rcases lt_or_le peak v with h | h
      · rw [if_pos h]
      · rw [if_neg (not_lt.2 h)]
        exact h
    rw [ddAux_cons] at hx
    rcases List.mem_cons.1 hx with rfl | hx'
    · have : v / (if v > peak then v else peak) ≤ 1 := (div_le_one hpk').2 hvle
      linarith
    · exact ih _ hpk' x hx'

theorem mddAux_eq_foldl (l : List ℚ) : ∀ peak m : ℚ, mddAux l peak m = (ddAux l peak).foldl min m := by
  induction l with
  | nil => intro peak m; rfl
  | cons v rest ih =>
    intro peak m
    rw [mddAux_cons, ddAux_cons, List.foldl_cons, ih]
    congr 1
    rcases lt_or_le (v / (if v > peak then v else peak) - 1) m with h | h
    · rw [if_pos h, min_eq_right (le_of_lt h)]
    · rw [if_neg (not_lt.2 h), min_eq_left h]

theorem foldl_min_le (l : List ℚ) : ∀ a : ℚ, ∀ x ∈ a :: l, l.foldl min a ≤ x := by
  induction l with
  | nil =>
    intro a x hx
    rw [List.mem_singleton] at hx
    subst hx
    exact le_refl x
  | cons b rest ih =>
    intro a x hx
    rw [List.foldl_cons]
    rcases List.mem_cons.1 hx with rfl | hx'
    · exact le_trans (ih (min x b) (min x b) (by simp)) (min_le_left x b)
    · rcases List.mem_cons.1 hx' with rfl | h2
      · exact le_trans (ih (min a x) (min a x) (by simp)) (min_le_right a x)
      · exact ih (min a b) x (List.mem_cons_of_mem _ h2)

theorem foldl_min_mem (l : List ℚ) : ∀ a : ℚ, l.foldl min a ∈ a :: l := by
  induction l with
  | nil => intro a; simp
  | cons b rest ih =>
    intro a
    rw [List.foldl_cons]
    rcases List.mem_cons.1 (ih (min a b)) with heq | hmem
    · rw [heq]
      rcases min_choice a b with h | h <;> rw [h] <;> simp
    · exact List.mem_cons_of_mem _ (List.mem_cons_of_mem _ hmem)

/-- C10 (amended): `drawdownSeries` always has the length of its input, and
for every series whose first element is positive — so the running peak stays
positive and no division by a zero peak occurs, in particular for every
positive equity series — every element is `≤ 0` and its minimum element
equals `maxDrawdown` (both use the same running-peak scan).  The all-series
claim fails in the source: with a negative running peak an element is
positive (see the counterexample), and with a zero running peak the source
computes `NaN` entries, so both conjuncts need the positive-start guard. -/
theorem drawdownSeries_spec (s : List ℚ) :
    (drawdownSeries s).length = s.length ∧
    (∀ (v : ℚ) (rest : List ℚ), s = v :: rest → 0 < v →
      (∀ x ∈ drawdownSeries s, x ≤ 0) ∧
      maxDrawdown s ∈ drawdownSeries s ∧
      ∀ x ∈ drawdownSeries s, maxDrawdown s ≤ x) := by
  refine ⟨?_, ?_⟩
  · cases s with
    | nil => rfl
    | cons v rest =>
      show (ddAux (v :: rest) v).length = _
      rw [ddAux_length]
  · rintro v rest rfl hv
    have hdd : drawdownSeries (v :: rest) = (v / v - 1) :: ddAux rest v := by
      show ddAux (v :: rest) v = _
      rw [ddAux_cons, if_neg (lt_irrefl v)]
    have hdd0 : v / v - 1 ≤ 0 := by
      rw [div_self (ne_of_gt hv)]
      norm_num
    have hmdd : maxDrawdown (v :: rest) = (ddAux rest v).foldl min (v / v - 1) := by
      show mddAux (v :: rest) v 0 = _
      rw [mddAux_eq_foldl, ddAux_cons, if_neg (lt_irrefl v), List.foldl_cons,
        min_eq_right hdd0]
    refine ⟨fun x hx => ddAux_nonpos (v :: rest) v hv x hx, ?_, ?_⟩
    · rw [hdd, hmdd]
      exact foldl_min_mem (ddAux rest v) (v / v - 1)
    · rw [hdd, hmdd]
      exact foldl_min_le (ddAux rest v) (v / v - 1)

/-- Counterexample for C10 as frozen: on the all-negative series `[-2, -3]`
the running peak is `-2` and the second drawdown value is
`(-3)/(-2) - 1 = 1/2 > 0`, so "every element is ≤ 0" fails for a general
series (the source computes the same positive value). -/
theorem drawdownSeries_cex : ¬ (∀ x ∈ drawdownSeries [(-2 : ℚ), -3], x ≤ 0) := by
  have hds : drawdownSeries [(-2 : ℚ), -3] = [0, 1/2] := by
    norm_num [drawdownSeries, ddAux]
  intro h
  have := h (1/2) (by rw [hds]; simp)
  norm_num at this

/-- Witness for C10 at a concrete positive series. -/
theorem drawdownSeries_spec_witness :
    (∀ x ∈ drawdownSeries [(1000 : ℚ), 990], x ≤ 0) ∧
    maxDrawdown [(1000 : ℚ), 990] ∈ drawdownSeries [(1000 : ℚ), 990] :=
  ⟨((drawdownSeries_spec [(1000 : ℚ), 990]).2 1000 [990] rfl (by norm_num)).1,
   ((drawdownSeries_spec [(1000 : ℚ), 990]).2 1000 [990] rfl (by norm_num)).2.1⟩

/-- C5: the progressive-exposure state machine.  Conjuncts: (1) the trade
loop applies `progUpdate` to the sampled outcome; (2) thresholds are coerced
to `≥ 1`; (3) on a positive outcome the win streak increments and the loss
streak resets, and when the incremented streak reaches the coerced win
threshold the risk doubles capped at the max risk and the win streak resets;
(4) on a negative outcome the loss streak increments and the win streak
resets, and when the incremented streak reaches the coerced loss threshold
the risk halves floored at the min risk and the loss streak resets; (5) on a
zero outcome both streaks reset; (6) the scenario: with a coerced loss
threshold of 1, a non-negative floor not above the starting risk, and every
outcome negative, the risk after `t` trades is `max minRisk (risk0 / 2^t)` —
it halves every trade until it reaches the floor and then stays there. -/
theorem progressive_exposure_spec :
    (∀ (buckets : List Bucket) (cum : List ℚ) (rng : ℕ → ℚ) (prog : Option ProgCfg)
        (s : PathState),
      ((tradeStep buckets cum rng prog s).1.currentRisk,
       (tradeStep buckets cum rng prog s).1.winStreak,
       (tradeStep buckets cum rng prog s).1.lossStreak) =
        progUpdate prog (tradeStep buckets cum rng prog s).2.2 s.currentRisk s.winStreak
          s.lossStreak) ∧
    (∀ q : ℚ, 1 ≤ coerceThreshold q) ∧
    (∀ (pc : ProgCfg) (sample risk : ℚ) (w l : ℕ), 0 < sample →
      progUpdate (some pc) sample risk w l =
        (if ((w + 1 : ℕ) : ℤ) ≥ coerceThreshold pc.winStreakThreshold
         then (min pc.maxRisk (risk * 2), 0, 0) else (risk, w + 1, 0))) ∧
    (∀ (pc : ProgCfg) (sample risk : ℚ) (w l : ℕ), sample < 0 →
      progUpdate (some pc) sample risk w l =
        (if ((l + 1 : ℕ) : ℤ) ≥ coerceThreshold pc.lossStreakThreshold
         then (max pc.minRisk (risk / 2), 0, 0) else (risk, 0, l + 1))) ∧
    (∀ (pc : ProgCfg) (risk : ℚ) (w l : ℕ),
      progUpdate (some pc) 0 risk w l = (risk, 0, 0)) ∧
    (∀ (pc : ProgCfg) (sample r0 : ℚ) (t : ℕ), 0 ≤ pc.minRisk → pc.minRisk ≤ r0 →
      sample < 0 → coerceThreshold pc.lossStreakThreshold = 1 →
      (fun r => (progUpdate (some pc) sample r 0 0).1)^[t] r0 =
        max pc.minRisk (r0 / 2 ^ t)) := by
  refine ⟨fun buckets cum rng prog s => rfl, fun q => le_max_left 1 (jsTrunc q),
    ?_, ?_, ?_, ?_⟩
  · intro pc sample risk w l h
    simp only [progUpdate]
    rw [if_pos h]
  · intro pc sample risk w l h
    simp only [progUpdate]
    rw [if_neg (not_lt.2 (le_of_lt h)), if_pos h]
  · intro pc risk w l
    simp only [progUpdate]
    rw [if_neg (lt_irrefl 0), if_neg (lt_irrefl 0)]
  · intro pc sample r0 t hm hr0 hneg hthr
    have hstep : ∀ r : ℚ, (progUpdate (some pc) sample r 0 0).1 = max pc.minRisk (r / 2) := by
      intro r
      simp only [progUpdate]
      rw [if_neg (not_lt.2 (le_of_lt hneg)), if_pos hneg, hthr]
      norm_num
    induction t with
    | zero =>
      simp [max_eq_right hr0]
    | succ t ih =>
      rw [Function.iterate_succ_apply', ih, hstep]
      rw [← max_div_div_right (by norm_num : (0 : ℚ) ≤ 2)]
      rw [← max_assoc, max_eq_left (half_le_self hm)]
      congr 1
      rw [div_div, ← pow_succ]

/-- Witness for C5 at the concrete policy with loss threshold 1: a losing
trade halves the risk (floored), and three losing trades from risk `1/50`
land at `max (1/400) (1/50 / 2^3)`. -/
theorem progressive_exposure_spec_witness :
    (progUpdate (some progW) (-1) (1/50) 0 0 =
      (if ((0 + 1 : ℕ) : ℤ) ≥ coerceThreshold progW.lossStreakThreshold
       then (max progW.minRisk ((1/50 : ℚ) / 2), 0, 0) else (1/50, 0, 0 + 1))) ∧
    (fun r => (progUpdate (some progW) (-1) r 0 0).1)^[3] (1/50) =
      max progW.minRisk ((1/50 : ℚ) / 2 ^ 3) :=
  ⟨progressive_exposure_spec.2.2.2.1 progW (-1) (1/50) 0 0 (by norm_num),
   progressive_exposure_spec.2.2.2.2.2 progW (-1) (1/50) 3 (by norm_num [progW])
     (by norm_num [progW]) (by norm_num)
     (by norm_num [coerceThreshold, jsTrunc, progW])⟩

theorem selIdx_found (cum : List ℚ) (bc : ℕ) (u : ℚ)
    (hex : ∃ i, ∃ _ : i < cum.length, u ≤ cum.getD i 0) :
    selIdx cum bc u < cum.length ∧ u ≤ cum.getD (selIdx cum bc u) 0 ∧
    ∀ i < selIdx cum bc u, cum.getD i 0 < u := by
  obtain ⟨i, hi, hle⟩ := hex
  have hex' : ∃ x ∈ cum, (fun q => decide (u ≤ q)) x = true := by
    refine ⟨cum[i], List.getElem_mem hi, ?_⟩
    rw [List.getD_eq_getElem cum 0 hi] at hle
    exact decide_eq_true hle
  have hflt : cum.findIdx (fun q => decide (u ≤ q)) < cum.length :=
    List.findIdx_lt_length_of_exists hex'
  have hj : selIdx cum bc u = cum.findIdx (fun q => decide (u ≤ q)) := by
    unfold selIdx
    exact if_neg (ne_of_lt hflt)
  rw [hj]
  refine ⟨hflt, ?_, ?_⟩
  · rw [List.getD_eq_getElem cum 0 hflt]
    exact of_decide_eq_true (@List.findIdx_getElem _ _ _ hflt)
  · intro k hk
    have hkl : k < cum.length := lt_trans hk hflt
    rw [List.getD_eq_getElem cum 0 hkl]
    exact not_le.1 (of_decide_eq_false (List.not_of_lt_findIdx hk))

theorem selIdx_notfound (cum : List ℚ) (bc : ℕ) (u : ℚ)
    (hall : ∀ i, i < cum.length → cum.getD i 0 < u) : selIdx cum bc u = bc - 1 := by
  have hnone : ∀ x ∈ cum, (fun q => decide (u ≤ q)) x = false := by
    intro x hx
    obtain ⟨i, hi, rfl⟩ := List.mem_iff_getElem.1 hx
    refine decide_eq_false (not_le.2 ?_)
    rw [← List.getD_eq_getElem cum 0 hi]
    exact hall i hi
  unfold selIdx
  exact if_pos (List.findIdx_eq_length.2 hnone)

/-- C3: sampling one trade outcome.  When some cumulative value reaches the
uniform draw `u`, the selected index is the first such index; when `u`
exceeds every cumulative value the selection falls back to the last bucket;
a `point` bucket yields its fixed value and advances the PRNG position by
exactly one draw; a `uniform` bucket yields `lo + (hi - lo) * v` using
exactly one additional draw `v`, advancing the position by two. -/
theorem sampleOutcome_spec (buckets : List Bucket) (rng : ℕ → ℚ) (pos : ℕ)
    (_hne : buckets ≠ []) :
    ((∃ i, ∃ _ : i < (cumTable buckets).length, rng pos ≤ (cumTable buckets).getD i 0) →
      rng pos ≤ (cumTable buckets).getD (selIdx (cumTable buckets) buckets.length (rng pos)) 0 ∧
      ∀ i < selIdx (cumTable buckets) buckets.length (rng pos),
        (cumTable buckets).getD i 0 < rng pos) ∧
    ((∀ i, i < (cumTable buckets).length → (cumTable buckets).getD i 0 < rng pos) →
      selIdx (cumTable buckets) buckets.length (rng pos) = buckets.length - 1) ∧
    ((chosenBucket buckets (cumTable buckets) (rng pos)).type = BucketType.point →
      sampleOutcome buckets (cumTable buckets) rng pos =
        ((chosenBucket buckets (cumTable buckets) (rng pos)).v.getD 0, pos + 1)) ∧
    ((chosenBucket buckets (cumTable buckets) (rng pos)).type = BucketType.uniform →
      sampleOutcome buckets (cumTable buckets) rng pos =
        ((chosenBucket buckets (cumTable buckets) (rng pos)).lo.getD 0 +
          ((chosenBucket buckets (cumTable buckets) (rng pos)).hi.getD 0 -
            (chosenBucket buckets (cumTable buckets) (rng pos)).lo.getD 0) * rng (pos + 1),
         pos + 2)) := by
  refine ⟨fun hex => (selIdx_found (cumTable buckets) buckets.length (rng pos) hex).2,
    selIdx_notfound (cumTable buckets) buckets.length (rng pos), fun hb => ?_, fun hb => ?_⟩
  · simp only [sampleOutcome]
    rw [hb]
  · simp only [sampleOutcome]
    rw [hb]

/-- Witness for C3 at the one-bucket list of weight 1 (cumulative table
`[1]`) and the constant-zero draw stream. -/
theorem sampleOutcome_spec_witness :
    ((∃ i, ∃ _ : i < (cumTable [bucketLoss]).length,
        (fun _ : ℕ => (0 : ℚ)) 0 ≤ (cumTable [bucketLoss]).getD i 0) →
      (fun _ : ℕ => (0 : ℚ)) 0 ≤ (cumTable [bucketLoss]).getD
          (selIdx (cumTable [bucketLoss]) [bucketLoss].length ((fun _ : ℕ => (0 : ℚ)) 0)) 0 ∧
      ∀ i < selIdx (cumTable [bucketLoss]) [bucketLoss].length ((fun _ : ℕ => (0 : ℚ)) 0),
        (cumTable [bucketLoss]).getD i 0 < (fun _ : ℕ => (0 : ℚ)) 0) ∧
    ((∀ i, i < (cumTable [bucketLoss]).length →
        (cumTable [bucketLoss]).getD i 0 < (fun _ : ℕ => (0 : ℚ)) 0) →
      selIdx (cumTable [bucketLoss]) [bucketLoss].length ((fun _ : ℕ => (0 : ℚ)) 0) =
        [bucketLoss].length - 1) ∧
    ((chosenBucket [bucketLoss] (cumTable [bucketLoss]) ((fun _ : ℕ => (0 : ℚ)) 0)).type =
        BucketType.point →
      sampleOutcome [bucketLoss] (cumTable [bucketLoss]) (fun _ : ℕ => (0 : ℚ)) 0 =
        ((chosenBucket [bucketLoss] (cumTable [bucketLoss])
            ((fun _ : ℕ => (0 : ℚ)) 0)).v.getD 0, 0 + 1)) ∧
    ((chosenBucket [bucketLoss] (cumTable [bucketLoss]) ((fun _ : ℕ => (0 : ℚ)) 0)).type =
        BucketType.uniform →
      sampleOutcome [bucketLoss] (cumTable [bucketLoss]) (fun _ : ℕ => (0 : ℚ)) 0 =
        ((chosenBucket [bucketLoss] (cumTable [bucketLoss]) ((fun _ : ℕ => (0 : ℚ)) 0)).lo.getD 0 +
          ((chosenBucket [bucketLoss] (cumTable [bucketLoss])
              ((fun _ : ℕ => (0 : ℚ)) 0)).hi.getD 0 -
            (chosenBucket [bucketLoss] (cumTable [bucketLoss])
              ((fun _ : ℕ => (0 : ℚ)) 0)).lo.getD 0) * (fun _ : ℕ => (0 : ℚ)) (0 + 1),
         0 + 2)) :=
  sampleOutcome_spec [bucketLoss] (fun _ => 0) 0 (by simp)

theorem getD_map_range {α : Type} (f : ℕ → α) (n p : ℕ) (d : α) (hp : p < n) :
    ((List.range n).map f).getD p d = f p := by
  rw [List.getD_eq_getElem?_getD, List.getElem?_map, List.getElem?_range hp]
  rfl

theorem runPathAux_succ (buckets : List Bucket) (cum : List ℚ) (rng : ℕ → ℚ)
    (prog : Option ProgCfg) (T : ℕ) (s : PathState) :
    runPathAux buckets cum rng prog (T + 1) s =
      ((tradeStep buckets cum rng prog s).2.1 ::
        (runPathAux buckets cum rng prog T (tradeStep buckets cum rng prog s).1).1,
       (tradeStep buckets cum rng prog s).2.2 ::
        (runPathAux buckets cum rng prog T (tradeStep buckets cum rng prog s).1).2.1,
       (runPathAux buckets cum rng prog T (tradeStep buckets cum rng prog s).1).2.2) := rfl

theorem tradeStep_equity (buckets : List Bucket) (cum : List ℚ) (rng : ℕ → ℚ)
    (prog : Option ProgCfg) (s : PathState) :
    (tradeStep buckets cum rng prog s).1.equity =
      s.equity * (1 + s.currentRisk * (tradeStep buckets cum rng prog s).2.2) := rfl

theorem runPathAux_eq_getD (buckets : List Bucket) (cum : List ℚ) (rng : ℕ → ℚ)
    (prog : Option ProgCfg) :
    ∀ (T t : ℕ) (s : PathState), t < T →
      ((runPathAux buckets cum rng prog T s).1.getD t 0 =
        ((pureStep buckets cum rng prog)^[t + 1] s).equity) ∧
      ((runPathAux buckets cum rng prog T s).2.1.getD t 0 =
        (tradeStep buckets cum rng prog ((pureStep buckets cum rng prog)^[t] s)).2.2) := by
  intro T
  induction T with
  | zero => intro t s ht; exact absurd ht (Nat.not_lt_zero t)
  | succ T ih =>
    intro t s ht
    rw [runPathAux_succ]
    cases t with
    | zero =>
      constructor
      · rw [List.getD_cons_zero]
        rfl
      · rw [List.getD_cons_zero]
        rfl
    | succ t' =>
      have ht' : t' < T := Nat.succ_lt_succ_iff.1 ht
      have hrec := ih t' (tradeStep buckets cum rng prog s).1 ht'
      constructor
      · rw [List.getD_cons_succ, hrec.1,
          show (tradeStep buckets cum rng prog s).1 = pureStep buckets cum rng prog s from rfl,
          ← Function.iterate_succ_apply]
      · rw [List.getD_cons_succ, hrec.2,
          show (tradeStep buckets cum rng prog s).1 = pureStep buckets cum rng prog s from rfl,
          ← Function.iterate_succ_apply]

theorem runSimulation_equityPaths (cfg : SimCfg) (ext : ℕ → ℚ) (p : ℕ)
    (hp : p < safePaths cfg) :
    (runSimulation cfg ext).equityPaths.getD p [] =
      (simOnePath cfg (createRng cfg.seed ext)
        (pathStartPos cfg (createRng cfg.seed ext) p)).1 := by
  show (((List.range (safePaths cfg)).map
      (fun q => simOnePath cfg (createRng cfg.seed ext)
        (pathStartPos cfg (createRng cfg.seed ext) q))).map (fun x => x.1)).getD p [] = _
  rw [List.map_map, getD_map_range _ _ _ _ hp]
  rfl

theorem runSimulation_rPaths (cfg : SimCfg) (ext : ℕ → ℚ) (p : ℕ)
    (hp : p < safePaths cfg) :
    (runSimulation cfg ext).rPaths.getD p [] =
      (simOnePath cfg (createRng cfg.seed ext)
        (pathStartPos cfg (createRng cfg.seed ext) p)).2.1 := by
  show (((List.range (safePaths cfg)).map
      (fun q => simOnePath cfg (createRng cfg.seed ext)
        (pathStartPos cfg (createRng cfg.seed ext) q))).map (fun x => x.2.1)).getD p [] = _
  rw [List.map_map, getD_map_range _ _ _ _ hp]
  rfl

/-- C2: for every path produced by `runSimulation` and every trade index
`t`, the recorded equity satisfies
`equity[t] = equity[t-1] * (1 + risk_t * outcome_t)`, where `equity[-1]` is
the configured start equity, `outcome_t` is the recorded raw outcome and
`risk_t` (`riskInEffect`) is the risk fraction in effect entering trade `t`
(the base fraction at `t = 0`, afterwards the progressively adjusted one). -/
theorem equity_recurrence (cfg : SimCfg) (ext : ℕ → ℚ) (p t : ℕ)
    (hp : p < safePaths cfg) (ht : t < safeTrades cfg) :
    ((runSimulation cfg ext).equityPaths.getD p []).getD t 0 =
      (if t = 0 then cfg.startEquity
       else ((runSimulation cfg ext).equityPaths.getD p []).getD (t - 1) 0) *
        (1 + riskInEffect cfg (createRng cfg.seed ext) p t *
          ((runSimulation cfg ext).rPaths.getD p []).getD t 0) := by
  rw [runSimulation_equityPaths cfg ext p hp, runSimulation_rPaths cfg ext p hp]
  have hsim : simOnePath cfg (createRng cfg.seed ext)
      (pathStartPos cfg (createRng cfg.seed ext) p) =
      runPathAux cfg.buckets (cumTable cfg.buckets) (createRng cfg.seed ext) cfg.progressive
        (safeTrades cfg)
        (initState cfg.startEquity cfg.riskFraction
          (pathStartPos cfg (createRng cfg.seed ext) p)) := rfl
  rw [hsim]
  have hrec := runPathAux_eq_getD cfg.buckets (cumTable cfg.buckets) (createRng cfg.seed ext)
    cfg.progressive (safeTrades cfg) t
    (initState cfg.startEquity cfg.riskFraction
      (pathStartPos cfg (createRng cfg.seed ext) p)) ht
  rw [hrec.1, hrec.2]
  have hrisk : riskInEffect cfg (createRng cfg.seed ext) p t =
      ((pureStep cfg.buckets (cumTable cfg.buckets) (createRng cfg.seed ext)
          cfg.progressive)^[t]
        (initState cfg.startEquity cfg.riskFraction
          (pathStartPos cfg (createRng cfg.seed ext) p))).currentRisk := rfl
  rw [hrisk]
  cases t with
  | zero =>
    rw [if_pos rfl, Function.iterate_zero_apply, Function.iterate_one]
    exact tradeStep_equity cfg.buckets (cumTable cfg.buckets) (createRng cfg.seed ext)
      cfg.progressive _
  | succ t' =>
    rw [if_neg (Nat.succ_ne_zero t'), Nat.succ_sub_one]
    have hprev := (runPathAux_eq_getD cfg.buckets (cumTable cfg.buckets)
      (createRng cfg.seed ext) cfg.progressive (safeTrades cfg) t'
      (initState cfg.startEquity cfg.riskFraction
        (pathStartPos cfg (createRng cfg.seed ext) p)) (Nat.lt_of_succ_lt ht)).1
    rw [hprev, Function.iterate_succ_apply' _ (t' + 1)]
    exact tradeStep_equity cfg.buckets (cumTable cfg.buckets) (createRng cfg.seed ext)
      cfg.progressive _

/-- Witness for C2 at the concrete seeded configuration, path 0, trade 0. -/
theorem equity_recurrence_witness :
    ((runSimulation cfgW (fun _ => 0)).equityPaths.getD 0 []).getD 0 0 =
      (if 0 = 0 then cfgW.startEquity
       else ((runSimulation cfgW (fun _ => 0)).equityPaths.getD 0 []).getD (0 - 1) 0) *
        (1 + riskInEffect cfgW (createRng cfgW.seed (fun _ => 0)) 0 0 *
          ((runSimulation cfgW (fun _ => 0)).rPaths.getD 0 []).getD 0 0) :=
  equity_recurrence cfgW (fun _ => 0) 0 0
    (by norm_num [safePaths, cfgW, jsTrunc])
    (by norm_num [safeTrades, cfgW, jsTrunc])

theorem monthlyAux_succ (eq r : List ℚ) (tpm k m : ℕ) (prev : ℚ) (year month : ℤ) :
    monthlyAux eq r tpm (k + 1) m prev year month =
      if min ((m + 1 : ℤ) * tpm) (eq.length : ℤ) - 1 < (m : ℤ) * tpm then []
      else
        blockRow eq r tpm m prev year month ::
          (if month + 1 = 13 then
            monthlyAux eq r tpm k (m + 1) (blockRow eq r tpm m prev year month).endEquity
              (year + 1) 1
          else
            monthlyAux eq r tpm k (m + 1) (blockRow eq r tpm m prev year month).endEquity
              year (month + 1)) := rfl

theorem blockRow_returnValue (eq r : List ℚ) (tpm m : ℕ) (prev : ℚ) (year month : ℤ) :
    (blockRow eq r tpm m prev year month).returnValue =
      (blockRow eq r tpm m prev year month).endEquity / prev - 1 := rfl

theorem blockRow_endEquity (eq r : List ℚ) (tpm m : ℕ) (prev : ℚ) (year month : ℤ) :
    (blockRow eq r tpm m prev year month).endEquity =
      eq.getD (min ((m + 1 : ℤ) * tpm) (eq.length : ℤ) - 1).toNat 0 := rfl

theorem monthlyAux_prod (eq r : List ℚ) (tpm : ℕ) (htpm : 1 ≤ tpm)
    (hnz : ∀ x ∈ eq, x ≠ 0) :
    ∀ (k m : ℕ) (prev : ℚ) (year month : ℤ), prev ≠ 0 →
      k + m = (eq.length + tpm - 1) / tpm →
      m < (eq.length + tpm - 1) / tpm →
      ((monthlyAux eq r tpm k m prev year month).map (fun row => 1 + row.returnValue)).prod =
        eq.getD (eq.length - 1) 0 / prev := by
  have hdm := Nat.div_add_mod (eq.length + tpm - 1) tpm
  have hmod := Nat.mod_lt (eq.length + tpm - 1) (show 0 < tpm by omega)
  have fact1 : eq.length ≤ tpm * ((eq.length + tpm - 1) / tpm) := by omega
  have fact2 : ∀ mm : ℕ, mm < (eq.length + tpm - 1) / tpm → mm * tpm < eq.length := by
    intro mm hmm
    have h1 : mm + 1 ≤ (eq.length + tpm - 1) / tpm := hmm
    have h2 : (mm + 1) * tpm ≤ ((eq.length + tpm - 1) / tpm) * tpm :=
      Nat.mul_le_mul_right tpm h1
    rw [Nat.mul_comm ((eq.length + tpm - 1) / tpm) tpm] at h2
    have h4 : tpm * 1 ≤ tpm * ((eq.length + tpm - 1) / tpm) :=
      Nat.mul_le_mul_left tpm (le_trans (by omega) h1)
    have h5 : (mm + 1) * tpm = mm * tpm + tpm := Nat.succ_mul mm tpm
    omega
  intro k
  induction k with
  | zero =>
    intro m prev year month _ hk hm
    omega
  | succ k ih =>
    intro m prev year month hprev hk hm
    have hmn : m * tpm < eq.length := fact2 m hm
    have hn1 : 1 ≤ eq.length := by omega
    have htpmZ : (1 : ℤ) ≤ (tpm : ℤ) := by exact_mod_cast htpm
    have hmnZ : (m : ℤ) * tpm + 1 ≤ (eq.length : ℤ) := by exact_mod_cast hmn
    have hminlb : (m : ℤ) * tpm + 1 ≤ min ((m + 1 : ℤ) * tpm) (eq.length : ℤ) := by
      refine le_min ?_ hmnZ
      have : ((m : ℤ) + 1) * tpm = (m : ℤ) * tpm + tpm := by ring
      rw [this]
      linarith
    have hnobreak : ¬ (min ((m + 1 : ℤ) * tpm) (eq.length : ℤ) - 1 < (m : ℤ) * tpm) := by
      push_neg
      linarith
    have hminub : min ((m + 1 : ℤ) * tpm) (eq.length : ℤ) ≤ (eq.length : ℤ) :=
      min_le_right _ _
    have hENlt : (min ((m + 1 : ℤ) * tpm) (eq.length : ℤ) - 1).toNat < eq.length := by
      omega
    have hEme : eq.getD (min ((m + 1 : ℤ) * tpm) (eq.length : ℤ) - 1).toNat 0 ∈ eq := by
      rw [List.getD_eq_getElem eq 0 hENlt]
      exact List.getElem_mem hENlt
    have hEnz : eq.getD (min ((m + 1 : ℤ) * tpm) (eq.length : ℤ) - 1).toNat 0 ≠ 0 :=
      hnz _ hEme
    rw [monthlyAux_succ, if_neg hnobreak]
    cases k with
    | zero =>
      have hmtop : m + 1 = (eq.length + tpm - 1) / tpm := by omega
      have hfull : (eq.length : ℤ) ≤ ((m : ℤ) + 1) * tpm := by
        have : ((m : ℤ) + 1) * tpm = ((m + 1 : ℕ) * tpm : ℕ) := by push_cast; ring
        rw [this]
        rw [hmtop]
        exact_mod_cast le_trans fact1 (le_of_eq (Nat.mul_comm _ _))
      have hminN : min ((m + 1 : ℤ) * tpm) (eq.length : ℤ) = (eq.length : ℤ) :=
        min_eq_right hfull
      have hEN : (min ((m + 1 : ℤ) * tpm) (eq.length : ℤ) - 1).toNat = eq.length - 1 := by
        omega
      have hrows : ∀ (e : ℚ) (y mo : ℤ), monthlyAux eq r tpm 0 (m + 1) e y mo = [] :=
        fun e y mo => rfl
      split
      · rw [hrows, List.map_cons, List.map_nil, List.prod_cons, List.prod_nil,
          blockRow_returnValue, blockRow_endEquity, hEN]
        field_simp
      · rw [hrows, List.map_cons, List.map_nil, List.prod_cons, List.prod_nil,
          blockRow_returnValue, blockRow_endEquity, hEN]
        field_simp
    | succ k' =>
      have hrest : ∀ (y mo : ℤ),
          ((monthlyAux eq r tpm (k' + 1) (m + 1)
              (blockRow eq r tpm m prev year month).endEquity y mo).map
            (fun row => 1 + row.returnValue)).prod =
          eq.getD (eq.length - 1) 0 / (blockRow eq r tpm m prev year month).endEquity := by
        intro y mo
        refine ih (m + 1) _ y mo ?_ (by omega) (by omega)
        rw [blockRow_endEquity]
        exact hEnz
      have hmain : (1 + (blockRow eq r tpm m prev year month).returnValue) *
          (eq.getD (eq.length - 1) 0 / (blockRow eq r tpm m prev year month).endEquity) =
          eq.getD (eq.length - 1) 0 / prev := by
        rw [blockRow_returnValue]
        have he : (blockRow eq r tpm m prev year month).endEquity ≠ 0 := by
          rw [blockRow_endEquity]
          exact hEnz
        field_simp
        ring
      split
      · rw [List.map_cons, List.prod_cons, hrest, hmain]
      · rw [List.map_cons, List.prod_cons, hrest, hmain]

/-- C8 (amended): for every non-empty equity path whose entries and start
equity are non-zero, the monthly block returns compound multiplicatively to
the path's total return: the product of `1 + returnValue` over all rows
equals `finalEquity / startEquity` exactly (hence within `1e-9`), where the
final equity is the path's last element (the equity at the end of the last
block).  The non-zero hypotheses are forced by the counterexample below: a
path reaching equity 0 makes a later block return degenerate, and the
product no longer telescopes. -/
theorem monthly_returns_compound (eqPath rPath : List ℚ) (startEquity : ℚ) (tpm : ℕ)
    (year month : ℤ) (hne : eqPath ≠ []) (hnz : ∀ x ∈ eqPath, x ≠ 0)
    (hs : startEquity ≠ 0) :
    ((monthlyStatsFromPath eqPath rPath startEquity tpm year month).map
        (fun row => 1 + row.returnValue)).prod =
      eqPath.getD (eqPath.length - 1) 0 / startEquity ∧
    |((monthlyStatsFromPath eqPath rPath startEquity tpm year month).map
        (fun row => 1 + row.returnValue)).prod -
      eqPath.getD (eqPath.length - 1) 0 / startEquity| ≤ 1 / 1000000000 := by
  have hn1 : 1 ≤ eqPath.length := List.length_pos.2 hne
  have htpm' : 1 ≤ max 1 tpm := le_max_left 1 tpm
  have hnM : 1 ≤ (eqPath.length + max 1 tpm - 1) / max 1 tpm := by
    rw [Nat.le_div_iff_mul_le (by omega : 0 < max 1 tpm)]
    omega
  have h := monthlyAux_prod eqPath rPath (max 1 tpm) htpm' hnz
    ((eqPath.length + max 1 tpm - 1) / max 1 tpm) 0 startEquity year month hs
    (by omega) (by omega)
  have h' : ((monthlyStatsFromPath eqPath rPath startEquity tpm year month).map
      (fun row => 1 + row.returnValue)).prod =
      eqPath.getD (eqPath.length - 1) 0 / startEquity := h
  refine ⟨h', by rw [h']; norm_num⟩

/-- Counterexample for C8 as frozen: on the equity path `[0, 5]` with one
trade per month and start equity 1, the two block returns are `-1` and
`-1` (JavaScript produces `-1` and `Infinity`), so the product of
`1 + return` is 0 while the total return factor is `5`; the product does not
compound to the final-over-start ratio within `1e-9`. -/
theorem monthly_returns_compound_cex :
    ¬ (|((monthlyStatsFromPath [0, 5] [0, 0] 1 1 2024 1).map
          (fun row => 1 + row.returnValue)).prod -
        ([(0 : ℚ), 5]).getD (([(0 : ℚ), 5]).length - 1) 0 / 1| ≤ 1 / 1000000000) := by
  have hrows : (monthlyStatsFromPath [0, 5] [0, 0] 1 1 2024 1).map
      (fun row => 1 + row.returnValue) = [0, 0] := by
    norm_num [monthlyStatsFromPath, monthlyAux, monthlyAux_succ, blockRow, List.getD]
  rw [hrows]
  norm_num

/-- Witness for C8 at a concrete two-trade path with one trade per month. -/
theorem monthly_returns_compound_witness :
    ((monthlyStatsFromPath [1000, 990] [(-1), -1] 1000 1 2024 11).map
        (fun row => 1 + row.returnValue)).prod =
      ([(1000 : ℚ), 990]).getD (([(1000 : ℚ), 990]).length - 1) 0 / 1000 ∧
    |((monthlyStatsFromPath [1000, 990] [(-1), -1] 1000 1 2024 11).map
        (fun row => 1 + row.returnValue)).prod -
      ([(1000 : ℚ), 990]).getD (([(1000 : ℚ), 990]).length - 1) 0 / 1000| ≤ 1 / 1000000000 :=
  monthly_returns_compound [1000, 990] [(-1), -1] 1000 1 2024 11 (by simp)
    (by norm_num) (by norm_num)

theorem getD_mono_of_pairwise {s : List ℚ} (hs : List.Pairwise (· ≤ ·) s) {i j : ℕ}
    (hij : i ≤ j) (hj : j < s.length) : s.getD i 0 ≤ s.getD j 0 := by
  rcases lt_or_eq_of_le hij with h | h
  · rw [List.getD_eq_getElem s 0 (lt_trans h hj), List.getD_eq_getElem s 0 hj]
    exact List.pairwise_iff_getElem.1 hs i j (lt_trans h hj) hj h
  · rw [h]

theorem interpSorted_def (s : List ℚ) (x : ℚ) :
    interpSorted s x =
      if ⌊x⌋ = ⌈x⌉ then s.getD ⌊x⌋.toNat 0
      else s.getD ⌊x⌋.toNat 0 +
        (s.getD ⌈x⌉.toNat 0 - s.getD ⌊x⌋.toNat 0) * (x - (⌊x⌋ : ℚ)) := rfl

theorem interpSorted_bounds {s : List ℚ} (hs : List.Pairwise (· ≤ ·) s) {x : ℚ}
    (hx0 : 0 ≤ x) (hxn : x ≤ (s.length : ℚ) - 1) :
    s.getD ⌊x⌋.toNat 0 ≤ interpSorted s x ∧ interpSorted s x ≤ s.getD ⌈x⌉.toNat 0 := by
  have hfl0 : 0 ≤ ⌊x⌋ := Int.floor_nonneg.2 hx0
  have hcl : ⌈x⌉ ≤ (s.length : ℤ) - 1 := by
    rw [Int.ceil_le]
    push_cast
    exact hxn
  have hfc : ⌊x⌋ ≤ ⌈x⌉ := Int.floor_le_ceil x
  have hclN : ⌈x⌉.toNat < s.length := by omega
  rw [interpSorted_def]
  split
  · next heq =>
    exact ⟨le_refl _, by rw [heq]⟩
  · next hne =>
    have ht0 : 0 ≤ x - (⌊x⌋ : ℚ) := sub_nonneg.2 (Int.floor_le x)
    have ht1 : x - (⌊x⌋ : ℚ) ≤ 1 := by
      have := Int.lt_floor_add_one x
      linarith
    have hd : 0 ≤ s.getD ⌈x⌉.toNat 0 - s.getD ⌊x⌋.toNat 0 :=
      sub_nonneg.2 (getD_mono_of_pairwise hs (by omega) hclN)
    constructor
    · nlinarith
    · nlinarith

theorem interpSorted_mono {s : List ℚ} (hs : List.Pairwise (· ≤ ·) s) {x y : ℚ}
    (hx0 : 0 ≤ x) (hxy : x ≤ y) (hyn : y ≤ (s.length : ℚ) - 1) :
    interpSorted s x ≤ interpSorted s y := by
  have hy0 : 0 ≤ y := le_trans hx0 hxy
  have hxn : x ≤ (s.length : ℚ) - 1 := le_trans hxy hyn
  have hbx := interpSorted_bounds hs hx0 hxn
  have hby := interpSorted_bounds hs hy0 hyn
  have hfl0x : 0 ≤ ⌊x⌋ := Int.floor_nonneg.2 hx0
  have hfl0y : 0 ≤ ⌊y⌋ := Int.floor_nonneg.2 hy0
  have hfly : ⌊y⌋ ≤ (s.length : ℤ) - 1 := by
    have h2 : (⌊y⌋ : ℚ) ≤ (s.length : ℚ) - 1 := le_trans (Int.floor_le y) hyn
    have h4 : (⌊y⌋ : ℚ) ≤ (((s.length : ℤ) - 1 : ℤ) : ℚ) := by push_cast; linarith
    exact_mod_cast h4
  have hcly : ⌈y⌉ ≤ (s.length : ℤ) - 1 := by
    rw [Int.ceil_le]
    push_cast
    exact hyn
  rcases le_or_lt ⌈x⌉ ⌊y⌋ with hcase | hcase
  · refine le_trans hbx.2 (le_trans (getD_mono_of_pairwise hs ?_ ?_) hby.1)
    · omega
    · omega
  · have hflxy : ⌊x⌋ ≤ ⌊y⌋ := Int.floor_le_floor hxy
    have hcfx : ⌈x⌉ ≤ ⌊x⌋ + 1 := Int.ceil_le_floor_add_one x
    have hfcx : ⌊x⌋ ≤ ⌈x⌉ := Int.floor_le_ceil x
    have hk1 : ⌊x⌋ = ⌊y⌋ := by omega
    have hk2 : ⌈x⌉ = ⌊x⌋ + 1 := by omega
    have hk3 : ⌈y⌉ = ⌊y⌋ + 1 := by
      rcases eq_or_lt_of_le (Int.floor_le_ceil y) with he | hl
      · exfalso
        have hyint : y = (⌊y⌋ : ℚ) := by
          have h1 := Int.floor_le y
          have h2 := Int.le_ceil y
          rw [← he] at h2
          linarith
        have hxeq : x = (⌊x⌋ : ℚ) := by
          have h1 := Int.floor_le x
          have h2 : ((⌊x⌋ : ℤ) : ℚ) = ((⌊y⌋ : ℤ) : ℚ) := by rw [hk1]
          rw [hyint, ← h2] at hxy
          linarith
        have : ⌈x⌉ = ⌊x⌋ := by
          rw [hxeq]
          rw [Int.ceil_intCast, Int.floor_intCast]
        omega
      · have := Int.ceil_le_floor_add_one y
        omega
    have hneqx : ¬ (⌊x⌋ = ⌈x⌉) := by omega
    have hneqy : ¬ (⌊y⌋ = ⌈y⌉) := by omega
    rw [interpSorted_def s x, interpSorted_def s y]
    rw [if_neg hneqx, if_neg hneqy, hk1, show ⌈x⌉ = ⌈y⌉ by omega]
    have hd : 0 ≤ s.getD ⌈y⌉.toNat 0 - s.getD ⌊y⌋.toNat 0 := by
      refine sub_nonneg.2 (getD_mono_of_pairwise hs ?_ ?_)
      · omega
      · omega
    nlinarith

theorem percentile_nonempty_eq (v : List ℚ) (p : ℚ) (hne : v ≠ []) :
    percentile v p =
      interpSorted (v.insertionSort (· ≤ ·))
        (p / 100 * (((v.insertionSort (· ≤ ·)).length : ℚ) - 1)) := by
  unfold percentile
  rw [if_neg hne]

/-- C6: `percentile` of the empty list is 0 for every `p`; for every
non-empty list, `percentile v 0` is the minimum of the values (a member not
above any value) and `percentile v 100` is the maximum; and for fixed
values, `percentile v p` is monotonically non-decreasing in `p` on
`0 ≤ p ≤ 100`. -/
theorem percentile_spec :
    (∀ p : ℚ, percentile [] p = 0) ∧
    (∀ v : List ℚ, v ≠ [] →
      (percentile v 0 ∈ v ∧ ∀ x ∈ v, percentile v 0 ≤ x) ∧
      (percentile v 100 ∈ v ∧ ∀ x ∈ v, x ≤ percentile v 100)) ∧
    (∀ (v : List ℚ) (p q : ℚ), 0 ≤ p → p ≤ q → q ≤ 100 →
      percentile v p ≤ percentile v q) := by
  have hsorted : ∀ v : List ℚ, List.Pairwise (· ≤ ·) (v.insertionSort (· ≤ ·)) :=
    fun v => List.sorted_insertionSort (· ≤ ·) v
  have hperm : ∀ v : List ℚ, (v.insertionSort (· ≤ ·)).Perm v :=
    fun v => List.perm_insertionSort (· ≤ ·) v
  have hlen : ∀ v : List ℚ, v ≠ [] → 1 ≤ (v.insertionSort (· ≤ ·)).length := by
    intro v hne
    rw [(hperm v).length_eq]
    exact List.length_pos.2 hne
  refine ⟨fun p => rfl, fun v hne => ?_, fun v p q hp hpq hq => ?_⟩
  · have h1 := hlen v hne
    constructor
    · have hidx : (0 : ℚ) / 100 * (((v.insertionSort (· ≤ ·)).length : ℚ) - 1) = 0 := by
        norm_num
      have hval : percentile v 0 = (v.insertionSort (· ≤ ·)).getD 0 0 := by
        rw [percentile_nonempty_eq v 0 hne, hidx]
        rw [interpSorted_def]
        rw [if_pos (by rw [Int.floor_zero, Int.ceil_zero])]
        rw [Int.floor_zero]
        rfl
      have hmem0 : 0 < (v.insertionSort (· ≤ ·)).length := h1
      constructor
      · rw [hval, List.getD_eq_getElem _ 0 hmem0]
        exact ((hperm v).mem_iff).1 (List.getElem_mem hmem0)
      · intro x hx
        obtain ⟨j, hj, rfl⟩ :=
          List.mem_iff_getElem.1 (((hperm v).mem_iff).2 hx)
        rw [hval, ← List.getD_eq_getElem _ 0 hj]
        exact getD_mono_of_pairwise (hsorted v) (Nat.zero_le j) hj
    · have hcast : (100 : ℚ) / 100 * (((v.insertionSort (· ≤ ·)).length : ℚ) - 1) =
          ((((v.insertionSort (· ≤ ·)).length : ℤ) - 1 : ℤ) : ℚ) := by
        push_cast
        ring
      have hval : percentile v 100 =
          (v.insertionSort (· ≤ ·)).getD ((v.insertionSort (· ≤ ·)).length - 1) 0 := by
        rw [percentile_nonempty_eq v 100 hne, hcast]
        rw [interpSorted_def]
        rw [if_pos (by rw [Int.floor_intCast, Int.ceil_intCast])]
        rw [Int.floor_intCast]
        congr 1
        omega
      have hlast : (v.insertionSort (· ≤ ·)).length - 1 < (v.insertionSort (· ≤ ·)).length := by
        omega
      constructor
      · rw [hval, List.getD_eq_getElem _ 0 hlast]
        exact ((hperm v).mem_iff).1 (List.getElem_mem hlast)
      · intro x hx
        obtain ⟨j, hj, rfl⟩ :=
          List.mem_iff_getElem.1 (((hperm v).mem_iff).2 hx)
        rw [hval, ← List.getD_eq_getElem _ 0 hj]
        exact getD_mono_of_pairwise (hsorted v) (by omega) hlast
  · rcases eq_or_ne v [] with rfl | hne
    · exact le_refl _
    · have h1 := hlen v hne
      have hL1 : 0 ≤ ((v.insertionSort (· ≤ ·)).length : ℚ) - 1 := by
        have : (1 : ℚ) ≤ ((v.insertionSort (· ≤ ·)).length : ℚ) := by exact_mod_cast h1
        linarith
      rw [percentile_nonempty_eq v p hne, percentile_nonempty_eq v q hne]
      refine interpSorted_mono (hsorted v) ?_ ?_ ?_
      · exact mul_nonneg (div_nonneg hp (by norm_num)) hL1
      · have hdiv : p / 100 ≤ q / 100 := by linarith
        exact mul_le_mul_of_nonneg_right hdiv hL1
      · have hdiv : q / 100 ≤ 1 := (div_le_one (by norm_num : (0 : ℚ) < 100)).2 hq
        have := mul_le_mul_of_nonneg_right hdiv hL1
        linarith

/-- Witness for C6 at the concrete list `[3, 1, 2]`. -/
theorem percentile_spec_witness :
    (percentile [3, 1, 2] 0 ∈ [(3 : ℚ), 1, 2] ∧
      ∀ x ∈ [(3 : ℚ), 1, 2], percentile [3, 1, 2] 0 ≤ x) ∧
    percentile [(3 : ℚ), 1, 2] 25 ≤ percentile [(3 : ℚ), 1, 2] 75 :=
  ⟨(percentile_spec.2.1 [3, 1, 2] (by simp)).1,
   percentile_spec.2.2 [3, 1, 2] 25 75 (by norm_num) (by norm_num) (by norm_num)⟩

end MonteCarlo
